import Mathlib

/-!
# Verification of the wxdump_rs core against its specification

Shallow embedding of the core subsystems of the `wxdump_rs` repository:

* the page-format decryption engine (`src/core/decryption.rs`,
  `src/wx_core/decryption.rs`),
* the process-memory pattern scanner (`src/core/win_api.rs`,
  `search_memory_for_pattern`),
* the key-resolution reconciliation logic (`src/core/info_extractor.rs`,
  `extract_all_wechat_info`),
* the offset-table persistence format (`src/wx_core/utils.rs` `WxOffs`,
  `src/core/offsets.rs` `load_wx_offsets`).

Machine integers are modelled as `Nat`/`Int`; byte buffers / files as
`List Nat`; fallible operations return `Except`.  The cryptographic
primitives (PBKDF2-HMAC-SHA1, HMAC-SHA1, the AES-256 block cipher) come
from external crates (`pbkdf2`, `hmac`, `sha1`, `aes`), not from this
repository, so they are taken as function parameters; the CBC chaining
that the `cbc` crate performs around the block cipher is spelled out
(`cbcDecrypt`), since the repository's code drives it block by block.
-/

namespace Wxdump

/-! ## Byte-buffer helpers -/

/-- Rust slice `l[a..b]`, as a total function (all uses in the embedded code
are guarded by length checks which the theorems carry as hypotheses). -/
def slice (l : List Nat) (a b : Nat) : List Nat :=
  (l.drop a).take (b - a)

theorem slice_length (l : List Nat) (a b : Nat) :
    (slice l a b).length = min (b - a) (l.length - a) := by
  simp [slice, Nat.sub_min_sub_right]

theorem slice_slice (l : List Nat) (a b c d : Nat) (h : a + d ≤ b) :
    slice (slice l a b) c d = slice l (a + c) (a + d) := by
  simp only [slice, List.drop_take, List.take_take, List.drop_drop]
  rw [Nat.add_comm a c]
  congr 1
  omega

theorem slice_replicate (n x a b : Nat) :
    slice (List.replicate n x) a b = List.replicate (min (b - a) (n - a)) x := by
  simp [slice, List.drop_replicate, List.take_replicate, Nat.sub_min_sub_right]

/-- `1u32.to_le_bytes()` and friends: little-endian 4-byte encoding. -/
def leBytes32 (n : Nat) : List Nat :=
  [n % 256, n / 256 % 256, n / 65536 % 256, n / 16777216 % 256]

/-! ## Hex decoding (the `hex` crate's `hex::decode`)

`hex::decode` accepts both lowercase and uppercase hex digits and fails on
any other character or on an odd-length input. -/

def hexVal (c : Char) : Option Nat :=
  if c.toNat ≥ 48 ∧ c.toNat ≤ 57 then some (c.toNat - 48)
  else if c.toNat ≥ 97 ∧ c.toNat ≤ 102 then some (c.toNat - 87)
  else if c.toNat ≥ 65 ∧ c.toNat ≤ 70 then some (c.toNat - 55)
  else none

def hexDecodeChars : List Char → Option (List Nat)
  | [] => some []
  | [_] => none
  | c1 :: c2 :: rest => do
    let hi ← hexVal c1
    let lo ← hexVal c2
    let tail ← hexDecodeChars rest
    pure ((16 * hi + lo) :: tail)

def hexDecode (s : String) : Option (List Nat) :=
  hexDecodeChars s.toList

/-! ## The decryption engine, `src/core/decryption.rs` -/

/-- Error type of `core::decryption`, from `enum DecryptionError`.
(`Io` is unreachable in the byte-level model, where the file has already
been read; it is kept for completeness of the taxonomy.) -/
inductive DecryptionError where
  | ioErr
  | fileTooShort
  | hmacVerificationFailed
  | keyDerivationFailed
  | hexDecodingFailed
  | other (msg : String)
deriving DecidableEq

/-- Standard CBC decryption: `P i = blockDec (C i) XOR C (i-1)`, with
`C (-1) = IV`; this is what `cbc::Decryptor` computes when it is driven
block-by-block over the buffer, as `decrypt_database_file` does. -/
def cbcDecrypt (blockDec : List Nat → List Nat) (iv ct : List Nat) : List Nat :=
  ((List.range (ct.length / 16)).map (fun i =>
    let prev := if i = 0 then iv else slice ct (16 * (i - 1)) (16 * i)
    List.zipWith (fun a b => a ^^^ b) (blockDec (slice ct (16 * i) (16 * i + 16))) prev)).flatten

/-- `b"SQLite format 3\x00"`. -/
def sqliteHeader : List Nat :=
  [83, 81, 76, 105, 116, 101, 32, 102, 111, 114, 109, 97, 116, 32, 51, 0]

/-- The body of the per-page loop of `decrypt_database_file` (src/core/decryption.rs
lines 119-159) for page index `i`: slice the page, pick the plaintext span
(`[16, 4048)` for page 0, `[0, 4048)` otherwise) and the IV (`[4048, 4064)`),
check block alignment, CBC-decrypt, and append the original 48-byte trailer.
The returned list is what this iteration writes to the output file. -/
def processPage (aesDec : List Nat → List Nat) (data : List Nat) (i : Nat) :
    Except DecryptionError (List Nat) :=
  let page := slice data (i * 4096) (i * 4096 + 4096)
  let dataToDecrypt := if i = 0 then slice page 16 4048 else slice page 0 4048
  let ivSlice := slice page 4048 4064
  if dataToDecrypt.isEmpty then .ok []
  else if dataToDecrypt.length % 16 ≠ 0 then
    .error (.other "Data to decrypt is not a multiple of AES block size")
  else .ok (cbcDecrypt aesDec ivSlice dataToDecrypt ++ slice page 4048 4096)

/-- The page loop: process pages in order, concatenating their output,
aborting on the first error (as the Rust `for` loop with `?`/`return` does). -/
def processPages (aesDec : List Nat → List Nat) (data : List Nat) :
    List Nat → Except DecryptionError (List Nat)
  | [] => .ok []
  | i :: rest =>
    match processPage aesDec data i with
    | .error e => .error e
    | .ok out =>
      match processPages aesDec data rest with
      | .error e => .error e
      | .ok outs => .ok (out ++ outs)

/-- `decrypt_database_file` from `src/core/decryption.rs`, as a pure function
from the key string and the encrypted file's bytes to the full sequence of
bytes written to the output file (or a typed error, in which case the output
file has not been created).  The path-existence precondition (the function's
first check) is outside the byte-level model.  `pbkdf2` models
`pbkdf2_hmac::<Sha1>` (password, salt, iteration count to 32 bytes) and
`hmacSha1` models one-shot HMAC-SHA1 (key, message to 20 bytes); `aesDec`
models the AES-256 block decryption for the derived key. -/
def decrypt_database_file
    (pbkdf2 : List Nat → List Nat → Nat → List Nat)
    (hmacSha1 : List Nat → List Nat → List Nat)
    (aesDec : List Nat → List Nat → List Nat)
    (keyHex : String) (data : List Nat) : Except DecryptionError (List Nat) :=
  if keyHex.length ≠ 64 then
    .error (.other "Key hex string must be 64 characters long.")
  else
    match hexDecode keyHex with
    | none => .error .hexDecodingFailed
    | some passwordBytes =>
      if data.length < 4096 then .error .fileTooShort
      else
        let salt := slice data 0 16
        let aesKey := pbkdf2 passwordBytes salt 64000
        let macSalt := salt.map (fun b => b ^^^ 58)
        let hmacKeyMaterial := pbkdf2 aesKey macSalt 2
        let firstPageDataForHmac := slice data 16 4064
        let storedHmac := slice data 4064 4084
        let calculatedHmac := hmacSha1 hmacKeyMaterial (firstPageDataForHmac ++ leBytes32 1)
        if calculatedHmac ≠ storedHmac then .error .hmacVerificationFailed
        else
          match processPages (aesDec aesKey) data (List.range (data.length / 4096)) with
          | .error e => .error e
          | .ok pages => .ok (sqliteHeader ++ pages)

/-- The output layout the specification describes for page `i` (stated from
the spec's words, in absolute file positions, for the refinement theorem):
the AES-256-CBC decryption of the page's plaintext span (bytes `[16, 4048)`
of the page for page 0, `[0, 4048)` otherwise; IV at bytes `[4048, 4064)` of
the page) followed by the page's original 48-byte trailer. -/
def specPageOutput (aesDec : List Nat → List Nat) (data : List Nat) (i : Nat) : List Nat :=
  cbcDecrypt aesDec (slice data (i * 4096 + 4048) (i * 4096 + 4064))
      (if i = 0 then slice data 16 4048
       else slice data (i * 4096) (i * 4096 + 4048))
    ++ slice data (i * 4096 + 4048) (i * 4096 + 4096)

/-! ## The half-ported decryptor, `src/wx_core/decryption.rs`

`wx_core::decryption::decrypt` validates the key, reads the file, verifies
the first page's HMAC and then — its page loop being an unimplemented TODO —
writes only the 16-byte SQLite header.  Its length guard checks only
`blist.len() < 16`; the subsequent `&blist[16..4096]` panics (index out of
range) for any file of length 16..4095.  The panic is modelled by the
explicit `sliceIndexPanic` outcome. -/

/-- Error type of `wx_core` (`enum WxCoreError`), restricted to the variants
reachable in the byte-level model of `decrypt`, plus `sliceIndexPanic`,
which models the Rust runtime panic raised by the out-of-bounds slice
`&blist[16..4096]` (not a typed error in the source). -/
inductive WxCoreError where
  | invalidPath (msg : String)
  | key (msg : String)
  | database (msg : String)
  | sliceIndexPanic
deriving DecidableEq

/-- `wx_core::decryption::decrypt` from `src/wx_core/decryption.rs`, as a pure
function from key string and file bytes to the bytes written to the output
file.  Path checks are outside the byte-level model. -/
def wx_decrypt
    (pbkdf2 : List Nat → List Nat → Nat → List Nat)
    (hmacSha1 : List Nat → List Nat → List Nat)
    (key : String) (data : List Nat) : Except WxCoreError (List Nat) :=
  if key.length ≠ 64 then .error (.key "Len Error!")
  else
    -- the source decodes `key.trim()`; after the 64-character length check,
    -- trimming matters only for whitespace-padded keys, which fail hex
    -- decoding either way, so the model decodes `key` directly
    match hexDecode key with
    | none => .error (.key "Invalid hex!")
    | some password =>
      if data.length < 16 then .error (.database "File too small!")
      else if data.length < 4096 then .error .sliceIndexPanic
      else
        let salt := slice data 0 16
        let macSalt := salt.map (fun b => b ^^^ 58)
        let byteHmac := pbkdf2 password salt 64000
        let macKey := pbkdf2 byteHmac macSalt 2
        let calculatedHmac := hmacSha1 macKey (slice data 16 4064 ++ [1, 0, 0, 0])
        let expectedHmac := slice data 4064 4084
        if calculatedHmac ≠ expectedHmac then .error (.key "Key Error!")
        else .ok sqliteHeader

/-! ## The memory scanner, `src/core/win_api.rs` `search_memory_for_pattern`

The foreign process's memory is modelled by a byte function
`mem : Nat → Nat` together with the sequence of regions that successive
`VirtualQueryEx` calls return (`MemRegion`: base, size, commit state, and
whether the protection is one of the four readable values the code accepts).
`ReadProcessMemory` on a committed readable region is modelled as reading
the full requested chunk. -/

/-- One `MEMORY_BASIC_INFORMATION` result: `committed` is
`State == MEM_COMMIT`; `readable` is
`Protect ∈ {PAGE_READWRITE, PAGE_READONLY, PAGE_EXECUTE_READ, PAGE_EXECUTE_READWRITE}`. -/
structure MemRegion where
  base : Nat
  size : Nat
  committed : Bool
  readable : Bool
deriving DecidableEq

/-- Literal byte-pattern match at address `addr`. -/
def matchesAt (mem : Nat → Nat) (pattern : List Nat) (addr : Nat) : Bool :=
  (List.range pattern.length).all (fun j => mem (addr + j) == pattern.getD j 0)

/-- The matches the inner `windows(pattern.len()).enumerate()` loop finds in
one chunk read of `len` bytes starting at address `start`, in order. -/
def chunkMatches (mem : Nat → Nat) (pattern : List Nat) (start len : Nat) : List Nat :=
  ((List.range (len + 1 - pattern.length)).filter
    (fun i => matchesAt mem pattern (start + i))).map (fun i => start + i)

/-- The per-region chunked read loop (`while address_in_region_to_scan < region_end`):
read `min 8192 (regionEnd - current)` bytes (the reused 8 KB buffer), collect
matches until `maxOcc` is reached, advance by the bytes read.  Chunk reads do
not overlap. -/
def scanChunks (mem : Nat → Nat) (pattern : List Nat) (maxOcc regionEnd current : Nat)
    (acc : List Nat) : List Nat :=
  if current < regionEnd ∧ acc.length < maxOcc then
    scanChunks mem pattern maxOcc regionEnd (current + min 8192 (regionEnd - current))
      (acc ++ (chunkMatches mem pattern current (min 8192 (regionEnd - current))).take
        (maxOcc - acc.length))
  else acc
termination_by regionEnd - current
decreasing_by omega

/-- The outer region loop (`while current_address < end_address && ...`):
each iteration consumes the next `VirtualQueryEx` answer; committed readable
regions are scanned from the current address to the region's end; the cursor
then jumps to the region's end. -/
def scanRegions (mem : Nat → Nat) (pattern : List Nat) (endAddr maxOcc : Nat) :
    List MemRegion → Nat → List Nat → List Nat
  | [], _, acc => acc
  | r :: rest, current, acc =>
    if current < endAddr ∧ acc.length < maxOcc then
      scanRegions mem pattern endAddr maxOcc rest (r.base + r.size)
        (if r.committed && r.readable then
          scanChunks mem pattern maxOcc (r.base + r.size) current acc
        else acc)
    else acc

/-- The scanner's only failure mode: `OpenProcess` denied. -/
inductive ScanError where
  | permissionDenied
deriving DecidableEq

/-- `search_memory_for_pattern` from `src/core/win_api.rs`: empty patterns
return an empty result before the process is even opened; a process that
cannot be opened for reading is the sole error; otherwise the region walk
runs from `startAddress`. -/
def search_memory_for_pattern (canOpen : Bool) (mem : Nat → Nat)
    (regions : List MemRegion) (pattern : List Nat)
    (startAddress endAddress maxOccurrences : Nat) : Except ScanError (List Nat) :=
  if pattern.isEmpty then .ok []
  else if !canOpen then .error .permissionDenied
  else .ok (scanRegions mem pattern endAddress maxOccurrences regions startAddress [])

/-- Well-formedness of a `VirtualQueryEx` trace: each answered region
contains the address it was queried at (`r.base ≤ current < r.base + r.size`),
queries being made at `startAddress` and then at each previous region's end.
This is the documented behaviour of `VirtualQueryEx`. -/
def validTrace : Nat → List MemRegion → Bool
  | _, [] => true
  | current, r :: rest =>
    decide (r.base ≤ current) && decide (current < r.base + r.size)
      && validTrace (r.base + r.size) rest

/-! ## Key-resolution reconciliation, `src/core/info_extractor.rs`

`extract_all_wechat_info` runs the offset strategy
(`read_key_via_pointer_offset`) and the memory-heuristic strategy
(`get_key_from_memory_search`) and reconciles their candidates with an
if-chain that compares each against a hard-coded literal key constant
(lines 286-322). -/

/-- The literal `expected_key_str` constant from `extract_all_wechat_info`. -/
def expected_key_str : String :=
  "ef135b887201452c9301f7ff774d83ce34852ab7f68844bfaae485b233626fe6"

/-- The reconciliation if-chain of `extract_all_wechat_info` (lines 306-321),
as a function of the two strategies' candidates to the final
`user_info.key`.  When neither strategy produced a candidate, the field is
left `none` (the surrounding function returns `Ok`; no error is raised). -/
def resolve_key (keyFromOffset keyFromMemorySearch : Option String) : Option String :=
  match keyFromMemorySearch with
  | some memK =>
    if memK = expected_key_str then some memK
    else
      match keyFromOffset with
      | some offsetK =>
        if offsetK = expected_key_str then some offsetK else some memK
      | none => some memK
  | none =>
    match keyFromOffset with
    | some offsetK => some offsetK
    | none => none

/-! ## Offset-table persistence

`src/wx_core/utils.rs` declares
`struct WxOffs { #[serde(flatten)] versions: HashMap<String, Vec<usize>> }`
with `to_file` = `serde_json::to_writer_pretty` and `from_file` =
`serde_json::from_reader`; `src/core/offsets.rs` `load_wx_offsets` parses
the same file shape by hand into `HashMap<String, Vec<isize>>` via
`Number::as_i64`.  JSON documents are modelled at the `serde_json::Value`
level (the text layer round-trips `Value`s losslessly); maps are modelled
as association lists. -/

inductive Json where
  | jnull
  | jbool (b : Bool)
  | jnum (n : Int)
  | jstr (s : String)
  | jarr (xs : List Json)
  | jobj (fields : List (String × Json))

/-- Serialization of a `WxOffs` table (`serde_json::to_writer_pretty` on a
flattened `HashMap<String, Vec<usize>>`): an object whose values are arrays
of numbers. -/
def wxOffsToJson (m : List (String × List Nat)) : Json :=
  .jobj (m.map (fun p => (p.1, .jarr (p.2.map (fun n : Nat => .jnum (n : Int))))))

/-- serde deserialization of one `usize` from a JSON value: the number must
be a non-negative integer fitting in 64 bits, anything else is an
`invalid type`/`invalid value` error. -/
def parseUsize : Json → Except String Nat
  | .jnum n =>
    if 0 ≤ n ∧ n < 18446744073709551616 then .ok n.toNat
    else .error "invalid value: integer out of range of usize"
  | _ => .error "invalid type: expected usize"

def parseUsizeList : List Json → Except String (List Nat)
  | [] => .ok []
  | j :: rest =>
    match parseUsize j with
    | .error e => .error e
    | .ok n =>
      match parseUsizeList rest with
      | .error e => .error e
      | .ok ns => .ok (n :: ns)

def parseUsizeField : Json → Except String (List Nat)
  | .jarr xs => parseUsizeList xs
  | _ => .error "invalid type: expected a sequence"

def parseUsizeFields : List (String × Json) → Except String (List (String × List Nat))
  | [] => .ok []
  | (v, j) :: rest =>
    match parseUsizeField j with
    | .error e => .error e
    | .ok ns =>
      match parseUsizeFields rest with
      | .error e => .error e
      | .ok tail => .ok ((v, ns) :: tail)

/-- `WxOffs::from_file` (`serde_json::from_reader` into the flattened
`HashMap<String, Vec<usize>>`), at the JSON-value level. -/
def wxOffsFromJson : Json → Except String (List (String × List Nat))
  | .jobj fields => parseUsizeFields fields
  | _ => .error "invalid type: expected a map"

/-- One offset via `Number::as_i64` (`load_wx_offsets`): any JSON integer in
the `i64` range is accepted, negative values included. -/
def parseI64 : Json → Except String Int
  | .jnum n =>
    if -9223372036854775808 ≤ n ∧ n ≤ 9223372036854775807 then .ok n
    else .error "Non-integer offset found"
  | _ => .error "Non-number value found in offset array"

def parseI64List : List Json → Except String (List Int)
  | [] => .ok []
  | j :: rest =>
    match parseI64 j with
    | .error e => .error e
    | .ok n =>
      match parseI64List rest with
      | .error e => .error e
      | .ok ns => .ok (n :: ns)

def parseI64Fields : List (String × Json) → Except String (List (String × List Int))
  | [] => .ok []
  | (v, j) :: rest =>
    match j with
    | .jarr xs =>
      match parseI64List xs with
      | .error e => .error e
      | .ok ns =>
        match parseI64Fields rest with
        | .error e => .error e
        | .ok tail => .ok ((v, ns) :: tail)
    | _ => .error "Value for version is not an array"

/-- `load_wx_offsets` from `src/core/offsets.rs`, from the parsed JSON value
(file discovery and text parsing are outside the model). -/
def load_wx_offsets : Json → Except String (List (String × List Int))
  | .jobj fields => parseI64Fields fields
  | _ => .error "Root is not a JSON object."

/-! ## Concrete instances used by counterexamples and witnesses -/

/-- A chunk-in-region occurrence: the pattern occurs (`matchesAt`) at `a`
inside a committed, readable region of the trace, with the occurrence lying
entirely within one of the 8192-byte chunk reads that the scanner performs
for that region (chunk `k` covers
`[entry + 8192*k, min (entry + 8192*(k+1)) (base+size))`, where `entry` is
the scan cursor on entering the region), the region being entered while the
cursor is still below `endAddr`. -/
def inChunkOcc (mem : Nat → Nat) (pattern : List Nat) (endAddr : Nat) :
    List MemRegion → Nat → Nat → Prop
  | [], _, _ => False
  | r :: rest, current, a =>
    (current < endAddr ∧ r.committed = true ∧ r.readable = true ∧
      matchesAt mem pattern a = true ∧
      ∃ k, current + 8192 * k ≤ a ∧
        a + pattern.length ≤ min (current + 8192 * (k + 1)) (r.base + r.size))
    ∨ inChunkOcc mem pattern endAddr rest (r.base + r.size) a

/-- Toy PBKDF2 stand-in for concrete witnesses (the primitive itself is an
external crate; the theorems hold for every primitive). -/
def pbW : List Nat → List Nat → Nat → List Nat := fun _ _ _ => List.replicate 32 0

/-- Toy HMAC-SHA1 stand-in returning the all-zero tag. -/
def hmZeroW : List Nat → List Nat → List Nat := fun _ _ => List.replicate 20 0

/-- Toy HMAC-SHA1 stand-in returning the all-one tag. -/
def hmOneW : List Nat → List Nat → List Nat := fun _ _ => List.replicate 20 1

/-- Toy AES block decryption stand-in (identity on the block). -/
def adW : List Nat → List Nat → List Nat := fun _ b => b

/-- A 64-character lowercase hex key. -/
def keyZeros : String :=
  "0000000000000000000000000000000000000000000000000000000000000000"

/-- A 64-character key in UPPERCASE hex: not lowercase, yet accepted by
`hex::decode`. -/
def keyUpperA : String :=
  "AAAAAAAAAAAAAAAAAAAAAAAAAAAAAAAAAAAAAAAAAAAAAAAAAAAAAAAAAAAAAAAA"

/-- A process memory holding the two-byte pattern `[1, 1]` at addresses
8191-8192, i.e. straddling the scanner's first 8192-byte chunk boundary. -/
def memBoundary : Nat → Nat := fun a => if a = 8191 ∨ a = 8192 then 1 else 0

/-- A small memory holding `[1, 1]` at addresses 3-4. -/
def memSmall : Nat → Nat := fun a => if a = 3 ∨ a = 4 then 1 else 0

/-- The spec-format offset-table document `\x7b"3.9.12.51": [-1]\x7d` with a
negative offset. -/
def negDoc : Json := .jobj [("3.9.12.51", .jarr [.jnum (-1)])]

/-! # Theorems -/

/-! ## Decryption-engine lemmas -/

theorem processPage_ok (aesDec : List Nat → List Nat) (data : List Nat) (i : Nat)
    (h : (i + 1) * 4096 ≤ data.length) :
    processPage aesDec data i = .ok (specPageOutput aesDec data i) := by
  have h16 : slice (slice data (i * 4096) (i * 4096 + 4096)) 16 4048
      = slice data (i * 4096 + 16) (i * 4096 + 4048) :=
    slice_slice data (i * 4096) (i * 4096 + 4096) 16 4048 (by omega)
  have h0 : slice (slice data (i * 4096) (i * 4096 + 4096)) 0 4048
      = slice data (i * 4096) (i * 4096 + 4048) := by
    have := slice_slice data (i * 4096) (i * 4096 + 4096) 0 4048 (by omega)
    simpa using this
  have hiv : slice (slice data (i * 4096) (i * 4096 + 4096)) 4048 4064
      = slice data (i * 4096 + 4048) (i * 4096 + 4064) :=
    slice_slice data (i * 4096) (i * 4096 + 4096) 4048 4064 (by omega)
  have htr : slice (slice data (i * 4096) (i * 4096 + 4096)) 4048 4096
      = slice data (i * 4096 + 4048) (i * 4096 + 4096) :=
    slice_slice data (i * 4096) (i * 4096 + 4096) 4048 4096 (by omega)
  rcases Nat.eq_zero_or_pos i with hi | hi
  · subst hi
    have hlen : (slice data 16 4048).length = 4032 := by
      rw [slice_length]; omega
    have hne : (slice data 16 4048).isEmpty = false := by
      rcases he : slice data 16 4048 with _ | _
      · rw [he] at hlen; simp at hlen
      · rfl
    simp only [processPage, specPageOutput, Nat.zero_mul, Nat.zero_add, if_true] at h16 hiv htr ⊢
    rw [h16, hiv, htr, if_neg (by simp [hne]), if_neg (by rw [hlen]; omega)]
  · have hne0 : i ≠ 0 := by omega
    have hlen : (slice data (i * 4096) (i * 4096 + 4048)).length = 4048 := by
      rw [slice_length]; omega
    have hne : (slice data (i * 4096) (i * 4096 + 4048)).isEmpty = false := by
      rcases he : slice data (i * 4096) (i * 4096 + 4048) with _ | _
      · rw [he] at hlen; simp at hlen
      · rfl
    simp only [processPage, specPageOutput]
    rw [if_neg hne0, if_neg hne0, h0, hiv, htr, if_neg (by simp [hne]),
      if_neg (by rw [hlen]; omega)]

theorem processPages_ok (aesDec : List Nat → List Nat) (data : List Nat) :
    ∀ is : List Nat, (∀ i ∈ is, (i + 1) * 4096 ≤ data.length) →
      processPages aesDec data is = .ok ((is.map (specPageOutput aesDec data)).flatten)
  | [], _ => rfl
  | i :: rest, h => by
    rw [processPages, processPage_ok aesDec data i (h i (by simp)),
      processPages_ok aesDec data rest (fun j hj => h j (by simp [hj]))]
    simp

/-- Key derivation as the code performs it: AES key from (password, salt,
64000 iterations), MAC key from (AES key, salt XOR 0x3A, 2 iterations). -/
def macKeyOf (pbkdf2 : List Nat → List Nat → Nat → List Nat)
    (pw data : List Nat) : List Nat :=
  pbkdf2 (pbkdf2 pw (slice data 0 16) 64000) ((slice data 0 16).map (fun b => b ^^^ 58)) 2

theorem decrypt_ok_layout
    (pbkdf2 : List Nat → List Nat → Nat → List Nat)
    (hmacSha1 : List Nat → List Nat → List Nat)
    (aesDec : List Nat → List Nat → List Nat)
    (keyHex : String) (data pw : List Nat)
    (h1 : keyHex.length = 64) (h2 : hexDecode keyHex = some pw)
    (h3 : 4096 ≤ data.length)
    (h4 : hmacSha1 (macKeyOf pbkdf2 pw data) (slice data 16 4064 ++ leBytes32 1)
      = slice data 4064 4084) :
    decrypt_database_file pbkdf2 hmacSha1 aesDec keyHex data
      = .ok (sqliteHeader ++ ((List.range (data.length / 4096)).map
          (specPageOutput (aesDec (pbkdf2 pw (slice data 0 16) 64000)) data)).flatten) := by
  rw [decrypt_database_file.eq_def, if_neg (by omega), h2]
  dsimp only
  rw [if_neg (by omega)]
  rw [if_neg (by simp only [macKeyOf] at h4; simp [h4])]
  rw [processPages_ok]
  intro i hi
  simp only [List.mem_range] at hi
  have h5 : i + 1 ≤ data.length / 4096 := hi
  calc (i + 1) * 4096 ≤ (data.length / 4096) * 4096 := Nat.mul_le_mul_right _ h5
    _ ≤ data.length := Nat.div_mul_le_self _ _

/-! ## Claim theorems: decryption -/

/-- C2: for every well-formed call (64-char key that hex-decodes, file of at
least one page), whenever the 20-byte HMAC stored immediately after the
16-byte IV in page 0's reserved trailer (bytes `[4064, 4084)`) differs from
HMAC-SHA1 under the MAC key of `page0[16 .. 4064) ‖ LE32(1)`, decrypt fails
with `HmacVerificationFailed`; in the model the output is the function's
result, so an error means no output bytes are produced (in the code the
output file is created only after this check passes). -/
theorem hmac_mismatch_fails
    (pbkdf2 : List Nat → List Nat → Nat → List Nat)
    (hmacSha1 : List Nat → List Nat → List Nat)
    (aesDec : List Nat → List Nat → List Nat)
    (keyHex : String) (data pw : List Nat)
    (h1 : keyHex.length = 64) (h2 : hexDecode keyHex = some pw)
    (h3 : 4096 ≤ data.length)
    (h4 : hmacSha1 (macKeyOf pbkdf2 pw data) (slice data 16 4064 ++ leBytes32 1)
      ≠ slice data 4064 4084) :
    decrypt_database_file pbkdf2 hmacSha1 aesDec keyHex data
      = .error .hmacVerificationFailed := by
  rw [decrypt_database_file.eq_def, if_neg (by omega), h2]
  dsimp only
  rw [if_neg (by omega)]
  rw [if_pos (by simp only [macKeyOf] at h4; simp [h4])]

theorem hmac_mismatch_fails_witness :
    keyZeros.length = 64 ∧ hexDecode keyZeros = some (List.replicate 32 0) ∧
    4096 ≤ (List.replicate 4096 1).length ∧
    hmZeroW (macKeyOf pbW (List.replicate 32 0) (List.replicate 4096 1))
        (slice (List.replicate 4096 1) 16 4064 ++ leBytes32 1)
      ≠ slice (List.replicate 4096 1) 4064 4084 ∧
    decrypt_database_file pbW hmZeroW adW keyZeros (List.replicate 4096 1)
      = .error .hmacVerificationFailed := by
  refine ⟨by decide, by decide, by simp only [List.length_replicate]; omega, ?hne, ?hc⟩
  case hne =>
    simp only [hmZeroW, slice_replicate]
    norm_num
  case hc =>
    refine hmac_mismatch_fails pbW hmZeroW adW keyZeros _ (List.replicate 32 0)
      (by decide) (by decide) (by simp only [List.length_replicate]; omega) ?_
    simp only [hmZeroW, slice_replicate]
    norm_num

/-- C3: for every well-formed encrypted input (an exact number `n ≥ 1` of
4096-byte pages, matching 64-hex-char key, page-0 HMAC verifying), decrypt
produces exactly the 16-byte literal `"SQLite format 3\x00"` header followed,
for each page `i` in order, by the CBC decryption of that page's plaintext
span (bytes `[16, 4048)` of page 0, `[0, 4048)` of every other page, IV from
bytes `[4048, 4064)` of the page) and then the page's original 48-byte
trailer unmodified (`specPageOutput`, stated from the spec's words); a
2-page 8192-byte input is the witness instance. -/
theorem decrypt_well_formed_layout
    (pbkdf2 : List Nat → List Nat → Nat → List Nat)
    (hmacSha1 : List Nat → List Nat → List Nat)
    (aesDec : List Nat → List Nat → List Nat)
    (keyHex : String) (data pw : List Nat) (n : Nat)
    (h1 : keyHex.length = 64) (h2 : hexDecode keyHex = some pw)
    (hn : data.length = n * 4096) (hn1 : 1 ≤ n)
    (h4 : hmacSha1 (macKeyOf pbkdf2 pw data) (slice data 16 4064 ++ leBytes32 1)
      = slice data 4064 4084) :
    decrypt_database_file pbkdf2 hmacSha1 aesDec keyHex data
      = .ok (sqliteHeader ++ ((List.range n).map
          (specPageOutput (aesDec (pbkdf2 pw (slice data 0 16) 64000)) data)).flatten) := by
  have hdiv : data.length / 4096 = n := by
    rw [hn]; exact Nat.mul_div_cancel _ (by omega)
  have := decrypt_ok_layout pbkdf2 hmacSha1 aesDec keyHex data pw h1 h2
    (by rw [hn]; omega) h4
  rw [hdiv] at this
  exact this

theorem decrypt_well_formed_layout_witness :
    keyZeros.length = 64 ∧ hexDecode keyZeros = some (List.replicate 32 0) ∧
    (List.replicate 8192 1 : List Nat).length = 2 * 4096 ∧ 1 ≤ 2 ∧
    hmOneW (macKeyOf pbW (List.replicate 32 0) (List.replicate 8192 1))
        (slice (List.replicate 8192 1) 16 4064 ++ leBytes32 1)
      = slice (List.replicate 8192 1) 4064 4084 ∧
    decrypt_database_file pbW hmOneW adW keyZeros (List.replicate 8192 1)
      = .ok (sqliteHeader ++ ((List.range 2).map
          (specPageOutput (adW (pbW (List.replicate 32 0)
            (slice (List.replicate 8192 1) 0 16) 64000)) (List.replicate 8192 1))).flatten) := by
  refine ⟨by decide, by decide, by simp only [List.length_replicate], by omega, ?heq, ?hc⟩
  case heq =>
    simp only [hmOneW, slice_replicate]
    norm_num
  case hc =>
    refine decrypt_well_formed_layout pbW hmOneW adW keyZeros _ (List.replicate 32 0) 2
      (by decide) (by decide) (by simp only [List.length_replicate]) (by omega) ?_
    simp only [hmOneW, slice_replicate]
    norm_num

/-- C10: for every input that passes first-page HMAC verification (valid
64-hex key, length ≥ 4096) and whose length is not a multiple of 4096, the
trailing `length mod 4096` bytes are silently ignored: exactly
`length / 4096` pages are decrypted and written after the header, and the
call succeeds rather than erroring on the partial trailing page. -/
theorem decrypt_ignores_partial_trailing_page
    (pbkdf2 : List Nat → List Nat → Nat → List Nat)
    (hmacSha1 : List Nat → List Nat → List Nat)
    (aesDec : List Nat → List Nat → List Nat)
    (keyHex : String) (data pw : List Nat)
    (h1 : keyHex.length = 64) (h2 : hexDecode keyHex = some pw)
    (h3 : 4096 ≤ data.length) (_h5 : data.length % 4096 ≠ 0)
    -- _h5 pins the claim to inputs with a partial trailing page; the layout
    -- result holds for every length ≥ one page
    (h4 : hmacSha1 (macKeyOf pbkdf2 pw data) (slice data 16 4064 ++ leBytes32 1)
      = slice data 4064 4084) :
    decrypt_database_file pbkdf2 hmacSha1 aesDec keyHex data
      = .ok (sqliteHeader ++ ((List.range (data.length / 4096)).map
          (specPageOutput (aesDec (pbkdf2 pw (slice data 0 16) 64000)) data)).flatten) :=
  decrypt_ok_layout pbkdf2 hmacSha1 aesDec keyHex data pw h1 h2 h3 h4

theorem decrypt_ignores_partial_trailing_page_witness :
    keyZeros.length = 64 ∧ hexDecode keyZeros = some (List.replicate 32 0) ∧
    4096 ≤ (List.replicate 5000 1 : List Nat).length ∧
    (List.replicate 5000 1 : List Nat).length % 4096 ≠ 0 ∧
    hmOneW (macKeyOf pbW (List.replicate 32 0) (List.replicate 5000 1))
        (slice (List.replicate 5000 1) 16 4064 ++ leBytes32 1)
      = slice (List.replicate 5000 1) 4064 4084 ∧
    decrypt_database_file pbW hmOneW adW keyZeros (List.replicate 5000 1)
      = .ok (sqliteHeader ++ ((List.range ((List.replicate 5000 1 : List Nat).length / 4096)).map
          (specPageOutput (adW (pbW (List.replicate 32 0)
            (slice (List.replicate 5000 1) 0 16) 64000)) (List.replicate 5000 1))).flatten) := by
  refine ⟨by decide, by decide, by simp only [List.length_replicate]; omega,
    by simp only [List.length_replicate]; omega, ?heq, ?hc⟩
  case heq =>
    simp only [hmOneW, slice_replicate]
    norm_num
  case hc =>
    refine decrypt_ignores_partial_trailing_page pbW hmOneW adW keyZeros _
      (List.replicate 32 0) (by decide) (by decide)
      (by simp only [List.length_replicate]; omega)
      (by simp only [List.length_replicate]; omega) ?_
    simp only [hmOneW, slice_replicate]
    norm_num

/-- C4 (code-bug evidence): with a valid 64-hex key and the 100-byte file,
`core::decrypt_database_file` returns the typed `FileTooShort` error as the
claim states, but `wx_core::decrypt` — whose only length guard is
`len < 16` before it slices `&blist[16..4096]` — panics with an
out-of-bounds slice index instead of returning a typed error, for every
length in `16..4095`. -/
theorem short_file_divergence :
    decrypt_database_file pbW hmZeroW adW keyZeros (List.replicate 100 0)
        = .error .fileTooShort ∧
    wx_decrypt pbW hmZeroW keyZeros (List.replicate 100 0)
        = .error .sliceIndexPanic := by
  constructor
  · rw [decrypt_database_file.eq_def, if_neg (by decide),
      show hexDecode keyZeros = some (List.replicate 32 0) by decide]
    dsimp only
    rw [if_pos (by simp)]
  · rw [wx_decrypt.eq_def, if_neg (by decide),
      show hexDecode keyZeros = some (List.replicate 32 0) by decide]
    dsimp only
    rw [if_neg (by simp only [List.length_replicate]; omega),
      if_pos (by simp only [List.length_replicate]; omega)]

/-- C8 (counterexample): the 64-character UPPERCASE hex key — not a
lowercase hex string — is accepted by `hex::decode`; decryption proceeds
past key validation and fails only later with `FileTooShort` on the empty
file, not with a key-encoding error. -/
theorem uppercase_key_accepted :
    decrypt_database_file pbW hmZeroW adW keyUpperA [] = .error .fileTooShort := by
  rw [decrypt_database_file.eq_def, if_neg (by decide),
    show hexDecode keyUpperA = some (List.replicate 32 170) by decide]
  dsimp only
  rw [if_pos (by simp)]

/-- C8 (amended): for every key string that is not a 64-character hex string
(upper- or lowercase) decoding to 32 raw bytes, decrypt fails with a
key-encoding error — the key-length `Other` error or `HexDecodingFailed` —
and the result does not depend on the file bytes at all (no file content is
read before key validation). -/
theorem invalid_key_rejected_before_io
    (pbkdf2 : List Nat → List Nat → Nat → List Nat)
    (hmacSha1 : List Nat → List Nat → List Nat)
    (aesDec : List Nat → List Nat → List Nat)
    (keyHex : String)
    (h : keyHex.length ≠ 64 ∨ hexDecode keyHex = none) :
    ∀ data data2 : List Nat,
      decrypt_database_file pbkdf2 hmacSha1 aesDec keyHex data
        = decrypt_database_file pbkdf2 hmacSha1 aesDec keyHex data2 ∧
      (decrypt_database_file pbkdf2 hmacSha1 aesDec keyHex data
          = .error (.other "Key hex string must be 64 characters long.") ∨
       decrypt_database_file pbkdf2 hmacSha1 aesDec keyHex data
          = .error .hexDecodingFailed) := by
  intro data data2
  by_cases hl : keyHex.length = 64
  · have hd : hexDecode keyHex = none := by tauto
    rw [decrypt_database_file.eq_def, decrypt_database_file.eq_def,
      if_neg (by omega), if_neg (by omega), hd]
    exact ⟨rfl, Or.inr rfl⟩
  · rw [decrypt_database_file.eq_def, decrypt_database_file.eq_def,
      if_pos (by omega), if_pos (by omega)]
    exact ⟨rfl, Or.inl rfl⟩

theorem invalid_key_rejected_before_io_witness :
    (("zz" : String).length ≠ 64 ∨ hexDecode "zz" = none) ∧
    (decrypt_database_file pbW hmZeroW adW "zz" []
        = decrypt_database_file pbW hmZeroW adW "zz" [1] ∧
      (decrypt_database_file pbW hmZeroW adW "zz" []
          = .error (.other "Key hex string must be 64 characters long.") ∨
       decrypt_database_file pbW hmZeroW adW "zz" []
          = .error .hexDecodingFailed)) :=
  ⟨Or.inl (by decide),
    invalid_key_rejected_before_io pbW hmZeroW adW "zz" (Or.inl (by decide)) [] [1]⟩

/-! ## Memory-scanner lemmas -/

theorem chunkMatches_sound (mem : Nat → Nat) (pattern : List Nat) (start len : Nat) :
    ∀ a ∈ chunkMatches mem pattern start len,
      start ≤ a ∧ a + pattern.length ≤ start + len ∧ matchesAt mem pattern a = true := by
  intro a ha
  simp only [chunkMatches, List.mem_map, List.mem_filter, List.mem_range] at ha
  obtain ⟨i, ⟨hi, hm⟩, rfl⟩ := ha
  exact ⟨Nat.le_add_right _ _, by omega, hm⟩

theorem chunkMatches_sorted (mem : Nat → Nat) (pattern : List Nat) (start len : Nat) :
    (chunkMatches mem pattern start len).Pairwise (· < ·) := by
  unfold chunkMatches
  rw [List.pairwise_map]
  exact ((List.pairwise_lt_range _).sublist (List.filter_sublist _)).imp (by omega)

theorem chunkMatches_complete (mem : Nat → Nat) (pattern : List Nat) (start len a : Nat)
    (h1 : start ≤ a) (h2 : a + pattern.length ≤ start + len)
    (hm : matchesAt mem pattern a = true) :
    a ∈ chunkMatches mem pattern start len := by
  simp only [chunkMatches, List.mem_map, List.mem_filter, List.mem_range]
  refine ⟨a - start, ⟨by omega, ?_⟩, by omega⟩
  have he : start + (a - start) = a := by omega
  rw [he]
  exact hm

theorem scanChunks_prefix (mem : Nat → Nat) (pattern : List Nat) (maxOcc regionEnd : Nat) :
    ∀ (fuel current : Nat) (acc : List Nat), regionEnd - current ≤ fuel →
      ∃ t, scanChunks mem pattern maxOcc regionEnd current acc = acc ++ t
  | 0, current, acc, hf => by
    rw [scanChunks, if_neg (by omega)]
    exact ⟨[], (List.append_nil acc).symm⟩
  | fuel + 1, current, acc, hf => by
    by_cases hcond : current < regionEnd ∧ acc.length < maxOcc
    · rw [scanChunks, if_pos hcond]
      obtain ⟨t, ht⟩ := scanChunks_prefix mem pattern maxOcc regionEnd fuel
        (current + min 8192 (regionEnd - current))
        (acc ++ (chunkMatches mem pattern current (min 8192 (regionEnd - current))).take
          (maxOcc - acc.length)) (by omega)
      rw [ht, List.append_assoc]
      exact ⟨_, rfl⟩
    · rw [scanChunks, if_neg hcond]
      exact ⟨[], (List.append_nil acc).symm⟩

theorem scanChunks_spec (mem : Nat → Nat) (pattern : List Nat) (maxOcc : Nat)
    (hp : 1 ≤ pattern.length) (regionEnd : Nat) :
    ∀ (fuel current : Nat) (acc : List Nat), regionEnd - current ≤ fuel →
      acc.Pairwise (· < ·) → (∀ x ∈ acc, x < current) → acc.length ≤ maxOcc →
      (scanChunks mem pattern maxOcc regionEnd current acc).length ≤ maxOcc ∧
      (scanChunks mem pattern maxOcc regionEnd current acc).Pairwise (· < ·) ∧
      ∀ x ∈ scanChunks mem pattern maxOcc regionEnd current acc,
        x < max current regionEnd ∧
        (x ∈ acc ∨ (current ≤ x ∧ x + pattern.length ≤ regionEnd ∧
          matchesAt mem pattern x = true))
  | 0, current, acc, hf, hpw, hlt, hlen => by
    rw [scanChunks, if_neg (by omega)]
    exact ⟨hlen, hpw, fun x hx =>
      ⟨lt_of_lt_of_le (hlt x hx) (le_max_left _ _), Or.inl hx⟩⟩
  | fuel + 1, current, acc, hf, hpw, hlt, hlen => by
    by_cases hcond : current < regionEnd ∧ acc.length < maxOcc
    · obtain ⟨h1, h2⟩ := hcond
      rw [scanChunks, if_pos ⟨h1, h2⟩]
      have hble : current + min 8192 (regionEnd - current) ≤ regionEnd := by omega
      have hb1 : 1 ≤ min 8192 (regionEnd - current) := by omega
      have hnm_sound : ∀ x ∈ (chunkMatches mem pattern current
            (min 8192 (regionEnd - current))).take (maxOcc - acc.length),
          current ≤ x ∧ x + pattern.length ≤ current + min 8192 (regionEnd - current) ∧
            matchesAt mem pattern x = true :=
        fun x hx => chunkMatches_sound mem pattern current _ x (List.take_subset _ _ hx)
      have hpw2 : (acc ++ (chunkMatches mem pattern current
            (min 8192 (regionEnd - current))).take (maxOcc - acc.length)).Pairwise
          (· < ·) := by
        rw [List.pairwise_append]
        exact ⟨hpw,
          (chunkMatches_sorted mem pattern current _).sublist (List.take_sublist _ _),
          fun x hx y hy => lt_of_lt_of_le (hlt x hx) (hnm_sound y hy).1⟩
      have hlt2 : ∀ x ∈ acc ++ (chunkMatches mem pattern current
            (min 8192 (regionEnd - current))).take (maxOcc - acc.length),
          x < current + min 8192 (regionEnd - current) := by
        intro x hx
        rcases List.mem_append.mp hx with hx | hx
        · exact lt_of_lt_of_le (hlt x hx) (by omega)
        · have := hnm_sound x hx
          omega
      have hlen2 : (acc ++ (chunkMatches mem pattern current
            (min 8192 (regionEnd - current))).take (maxOcc - acc.length)).length
          ≤ maxOcc := by
        rw [List.length_append, List.length_take]
        omega
      obtain ⟨rl, rp, rm⟩ := scanChunks_spec mem pattern maxOcc hp regionEnd fuel
        (current + min 8192 (regionEnd - current)) _ (by omega) hpw2 hlt2 hlen2
      refine ⟨rl, rp, fun x hx => ?_⟩
      obtain ⟨hxb, hxm⟩ := rm x hx
      constructor
      · omega
      · rcases hxm with hxm | hxm
        · rcases List.mem_append.mp hxm with hxm | hxm
          · exact Or.inl hxm
          · have := hnm_sound x hxm
            exact Or.inr ⟨this.1, by omega, this.2.2⟩
        · exact Or.inr ⟨by omega, hxm.2⟩
    · rw [scanChunks, if_neg hcond]
      exact ⟨hlen, hpw, fun x hx =>
        ⟨lt_of_lt_of_le (hlt x hx) (le_max_left _ _), Or.inl hx⟩⟩

theorem scanChunks_complete (mem : Nat → Nat) (pattern : List Nat) (maxOcc : Nat)
    (hp : 1 ≤ pattern.length) (regionEnd : Nat) :
    ∀ (fuel current : Nat) (acc : List Nat) (a : Nat), regionEnd - current ≤ fuel →
      (scanChunks mem pattern maxOcc regionEnd current acc).length < maxOcc →
      matchesAt mem pattern a = true →
      (∃ k, current + 8192 * k ≤ a ∧
        a + pattern.length ≤ min (current + 8192 * (k + 1)) regionEnd) →
      a ∈ scanChunks mem pattern maxOcc regionEnd current acc
  | 0, current, acc, a, hf, hres, hm, ⟨k, hk1, hk2⟩ => by
    exfalso
    omega
  | fuel + 1, current, acc, a, hf, hres, hm, ⟨k, hk1, hk2⟩ => by
    have hcr : current < regionEnd := by omega
    have hacc : acc.length < maxOcc := by
      obtain ⟨t, ht⟩ := scanChunks_prefix mem pattern maxOcc regionEnd
        (regionEnd - current) current acc le_rfl
      rw [ht, List.length_append] at hres
      omega
    rw [scanChunks, if_pos ⟨hcr, hacc⟩] at hres ⊢
    rcases Nat.eq_zero_or_pos k with hk0 | hkpos
    · subst hk0
      have hin : a ∈ chunkMatches mem pattern current (min 8192 (regionEnd - current)) :=
        chunkMatches_complete mem pattern current _ a (by omega) (by omega) hm
      have hcmlen : (chunkMatches mem pattern current
          (min 8192 (regionEnd - current))).length ≤ maxOcc - acc.length := by
        by_contra hgt
        push_neg at hgt
        obtain ⟨t, ht⟩ := scanChunks_prefix mem pattern maxOcc regionEnd
          (regionEnd - (current + min 8192 (regionEnd - current)))
          (current + min 8192 (regionEnd - current))
          (acc ++ (chunkMatches mem pattern current
            (min 8192 (regionEnd - current))).take (maxOcc - acc.length)) le_rfl
        rw [ht, List.length_append, List.length_append, List.length_take] at hres
        omega
      obtain ⟨t, ht⟩ := scanChunks_prefix mem pattern maxOcc regionEnd
        (regionEnd - (current + min 8192 (regionEnd - current)))
        (current + min 8192 (regionEnd - current))
        (acc ++ (chunkMatches mem pattern current
          (min 8192 (regionEnd - current))).take (maxOcc - acc.length)) le_rfl
      rw [ht, List.take_of_length_le hcmlen]
      simp [hin]
    · have hb8 : min 8192 (regionEnd - current) = 8192 := by omega
      refine scanChunks_complete mem pattern maxOcc hp regionEnd fuel
        (current + min 8192 (regionEnd - current)) _ a (by omega) hres hm ?_
      exact ⟨k - 1, by omega, by omega⟩

theorem scanRegions_prefix (mem : Nat → Nat) (pattern : List Nat) (endAddr maxOcc : Nat) :
    ∀ (regions : List MemRegion) (current : Nat) (acc : List Nat),
      ∃ t, scanRegions mem pattern endAddr maxOcc regions current acc = acc ++ t
  | [], _, acc => ⟨[], (List.append_nil acc).symm⟩
  | r :: rest, current, acc => by
    by_cases hcond : current < endAddr ∧ acc.length < maxOcc
    · rw [scanRegions, if_pos hcond]
      by_cases hr : (r.committed && r.readable) = true
      · rw [if_pos hr]
        obtain ⟨t1, ht1⟩ := scanChunks_prefix mem pattern maxOcc (r.base + r.size)
          (r.base + r.size - current) current acc le_rfl
        obtain ⟨t2, ht2⟩ := scanRegions_prefix mem pattern endAddr maxOcc rest
          (r.base + r.size) (scanChunks mem pattern maxOcc (r.base + r.size) current acc)
        rw [ht2, ht1, List.append_assoc]
        exact ⟨_, rfl⟩
      · rw [if_neg hr]
        exact scanRegions_prefix mem pattern endAddr maxOcc rest (r.base + r.size) acc
    · rw [scanRegions, if_neg hcond]
      exact ⟨[], (List.append_nil acc).symm⟩

theorem scanRegions_spec (mem : Nat → Nat) (pattern : List Nat) (endAddr maxOcc : Nat)
    (hp : 1 ≤ pattern.length) :
    ∀ (regions : List MemRegion) (current : Nat) (acc : List Nat),
      validTrace current regions = true →
      acc.Pairwise (· < ·) → (∀ x ∈ acc, x < current) → acc.length ≤ maxOcc →
      (scanRegions mem pattern endAddr maxOcc regions current acc).length ≤ maxOcc ∧
      (scanRegions mem pattern endAddr maxOcc regions current acc).Pairwise (· < ·) ∧
      ∀ x ∈ scanRegions mem pattern endAddr maxOcc regions current acc,
        x ∈ acc ∨ ∃ r, r ∈ regions ∧ r.committed = true ∧ r.readable = true ∧
          r.base ≤ x ∧ x + pattern.length ≤ r.base + r.size ∧
          matchesAt mem pattern x = true
  | [], current, acc, _, hpw, _, hlen =>
    ⟨hlen, hpw, fun x hx => Or.inl hx⟩
  | r :: rest, current, acc, hv, hpw, hlt, hlen => by
    simp only [validTrace, Bool.and_eq_true, decide_eq_true_eq] at hv
    obtain ⟨⟨hb1, hb2⟩, hv2⟩ := hv
    by_cases hcond : current < endAddr ∧ acc.length < maxOcc
    · rw [scanRegions, if_pos hcond]
      by_cases hr : (r.committed && r.readable) = true
      · rw [if_pos hr]
        simp only [Bool.and_eq_true] at hr
        obtain ⟨cl, cp, cm⟩ := scanChunks_spec mem pattern maxOcc hp (r.base + r.size)
          (r.base + r.size - current) current acc le_rfl hpw hlt hlen
        obtain ⟨rl, rp, rm⟩ := scanRegions_spec mem pattern endAddr maxOcc hp rest
          (r.base + r.size) (scanChunks mem pattern maxOcc (r.base + r.size) current acc)
          hv2 cp (fun x hx => by have := (cm x hx).1; omega) cl
        refine ⟨rl, rp, fun x hx => ?_⟩
        rcases rm x hx with hxa | ⟨r2, hr2, hprops⟩
        · rcases (cm x hxa).2 with hxacc | ⟨hx1, hx2, hx3⟩
          · exact Or.inl hxacc
          · exact Or.inr ⟨r, List.mem_cons_self _ _, hr.1, hr.2, by omega, hx2, hx3⟩
        · exact Or.inr ⟨r2, List.mem_cons_of_mem _ hr2, hprops⟩
      · rw [if_neg hr]
        obtain ⟨rl, rp, rm⟩ := scanRegions_spec mem pattern endAddr maxOcc hp rest
          (r.base + r.size) acc hv2 hpw (fun x hx => by have := hlt x hx; omega) hlen
        refine ⟨rl, rp, fun x hx => ?_⟩
        rcases rm x hx with hxa | ⟨r2, hr2, hprops⟩
        · exact Or.inl hxa
        · exact Or.inr ⟨r2, List.mem_cons_of_mem _ hr2, hprops⟩
    · rw [scanRegions, if_neg hcond]
      exact ⟨hlen, hpw, fun x hx => Or.inl hx⟩

theorem inChunkOcc_lt_end (mem : Nat → Nat) (pattern : List Nat) (endAddr : Nat) :
    ∀ (regions : List MemRegion) (current a : Nat),
      validTrace current regions = true →
      inChunkOcc mem pattern endAddr regions current a → current < endAddr
  | [], _, _, _, h => absurd h (by simp [inChunkOcc])
  | r :: rest, current, a, hv, h => by
    simp only [validTrace, Bool.and_eq_true, decide_eq_true_eq] at hv
    simp only [inChunkOcc] at h
    rcases h with ⟨h1, _⟩ | htail
    · exact h1
    · have := inChunkOcc_lt_end mem pattern endAddr rest (r.base + r.size) a hv.2 htail
      omega

theorem scanRegions_complete (mem : Nat → Nat) (pattern : List Nat) (endAddr maxOcc : Nat)
    (hp : 1 ≤ pattern.length) :
    ∀ (regions : List MemRegion) (current : Nat) (acc : List Nat) (a : Nat),
      validTrace current regions = true →
      (scanRegions mem pattern endAddr maxOcc regions current acc).length < maxOcc →
      inChunkOcc mem pattern endAddr regions current a →
      a ∈ scanRegions mem pattern endAddr maxOcc regions current acc
  | [], _, _, _, _, _, hocc => absurd hocc (by simp [inChunkOcc])
  | r :: rest, current, acc, a, hv, hres, hocc => by
    have hlt_end : current < endAddr :=
      inChunkOcc_lt_end mem pattern endAddr (r :: rest) current a hv hocc
    simp only [validTrace, Bool.and_eq_true, decide_eq_true_eq] at hv
    obtain ⟨⟨hb1, hb2⟩, hv2⟩ := hv
    have hacc : acc.length < maxOcc := by
      obtain ⟨t, ht⟩ := scanRegions_prefix mem pattern endAddr maxOcc (r :: rest) current acc
      rw [ht, List.length_append] at hres
      omega
    rw [scanRegions, if_pos ⟨hlt_end, hacc⟩] at hres ⊢
    simp only [inChunkOcc] at hocc
    rcases hocc with ⟨_, hcomm, hread, hm, k, hk1, hk2⟩ | htail
    · have hr : (r.committed && r.readable) = true := by simp [hcomm, hread]
      rw [if_pos hr] at hres ⊢
      obtain ⟨t2, ht2⟩ := scanRegions_prefix mem pattern endAddr maxOcc rest
        (r.base + r.size) (scanChunks mem pattern maxOcc (r.base + r.size) current acc)
      have hacc2 : (scanChunks mem pattern maxOcc (r.base + r.size) current acc).length
          < maxOcc := by
        rw [ht2, List.length_append] at hres
        omega
      have hmem : a ∈ scanChunks mem pattern maxOcc (r.base + r.size) current acc :=
        scanChunks_complete mem pattern maxOcc hp (r.base + r.size)
          (r.base + r.size - current) current acc a le_rfl hacc2 hm ⟨k, hk1, hk2⟩
      rw [ht2]
      exact List.mem_append.mpr (Or.inl hmem)
    · by_cases hr : (r.committed && r.readable) = true
      · rw [if_pos hr] at hres ⊢
        exact scanRegions_complete mem pattern endAddr maxOcc hp rest (r.base + r.size)
          _ a hv2 hres htail
      · rw [if_neg hr] at hres ⊢
        exact scanRegions_complete mem pattern endAddr maxOcc hp rest (r.base + r.size)
          acc a hv2 hres htail

/-! ## Claim theorems: memory scanner -/

/-- C5: for every call of `search_memory_for_pattern` over a well-formed
`VirtualQueryEx` trace, the returned address sequence has length at most
`maxOccurrences` and is strictly increasing. -/
theorem scan_bounded_and_strictly_increasing (canOpen : Bool) (mem : Nat → Nat)
    (regions : List MemRegion) (pattern : List Nat)
    (startAddress endAddress maxOccurrences : Nat)
    (hv : validTrace startAddress regions = true) :
    ∀ l, search_memory_for_pattern canOpen mem regions pattern startAddress endAddress
        maxOccurrences = .ok l →
      l.length ≤ maxOccurrences ∧ l.Pairwise (· < ·) := by
  intro l hl
  rw [search_memory_for_pattern] at hl
  by_cases hpat : pattern.isEmpty
  · rw [if_pos hpat] at hl
    obtain rfl : ([] : List Nat) = l := by
      simpa using hl
    exact ⟨by simp, by simp⟩
  · rw [if_neg hpat] at hl
    cases hco : canOpen with
    | false =>
      rw [hco] at hl
      simp at hl
    | true =>
      rw [hco] at hl
      simp only [Bool.not_true, Bool.false_eq_true, if_false] at hl
      obtain rfl : scanRegions mem pattern endAddress maxOccurrences regions startAddress []
          = l := by
        simpa using hl
      have hp : 1 ≤ pattern.length := by
        rcases pattern with _ | _
        · simp at hpat
        · simp
      obtain ⟨h1, h2, _⟩ := scanRegions_spec mem pattern endAddress maxOccurrences hp
        regions startAddress [] hv List.Pairwise.nil (by simp) (by simp)
      exact ⟨h1, h2⟩

theorem scan_bounded_and_strictly_increasing_witness :
    validTrace 0 [⟨0, 10, true, true⟩] = true ∧
    (∀ l, search_memory_for_pattern true (fun _ => 0) [⟨0, 10, true, true⟩] [1] 0 100 3
        = .ok l → l.length ≤ 3 ∧ l.Pairwise (· < ·)) :=
  ⟨by decide,
    scan_bounded_and_strictly_increasing true (fun _ => 0) [⟨0, 10, true, true⟩] [1]
      0 100 3 (by decide)⟩

/-- C6: when the process can be opened for reading and the pattern occurs
nowhere inside the committed, readable regions of the trace, the scan
returns an empty sequence — not an error; and (second conjunct) every call
that does fail, fails with `PermissionDenied` only because the process
could not be opened for reading. -/
theorem scan_no_match_is_empty_not_error (canOpen : Bool) (mem : Nat → Nat)
    (regions : List MemRegion) (pattern : List Nat)
    (startAddress endAddress maxOccurrences : Nat)
    (hopen : canOpen = true)
    (hv : validTrace startAddress regions = true)
    (hno : ∀ r ∈ regions, r.committed = true → r.readable = true →
      ∀ a, r.base ≤ a → a + pattern.length ≤ r.base + r.size →
        matchesAt mem pattern a = false) :
    search_memory_for_pattern canOpen mem regions pattern startAddress endAddress
        maxOccurrences = .ok [] ∧
    ∀ (co : Bool) (mem2 : Nat → Nat) (regions2 : List MemRegion) (pattern2 : List Nat)
      (s2 e2 m2 : Nat) (err : ScanError),
      search_memory_for_pattern co mem2 regions2 pattern2 s2 e2 m2 = .error err →
      co = false := by
  constructor
  · subst hopen
    rw [search_memory_for_pattern]
    by_cases hpat : pattern.isEmpty
    · rw [if_pos hpat]
    · rw [if_neg hpat]
      simp only [Bool.not_true, Bool.false_eq_true, if_false]
      have hp : 1 ≤ pattern.length := by
        rcases pattern with _ | _
        · simp at hpat
        · simp
      obtain ⟨_, _, hmem⟩ := scanRegions_spec mem pattern endAddress maxOccurrences hp
        regions startAddress [] hv List.Pairwise.nil (by simp) (by simp)
      have : scanRegions mem pattern endAddress maxOccurrences regions startAddress []
          = [] := by
        rw [List.eq_nil_iff_forall_not_mem]
        intro x hx
        rcases hmem x hx with hxa | ⟨r, hr, hc, hrd, hb, hsz, hm⟩
        · simp at hxa
        · rw [hno r hr hc hrd x hb hsz] at hm
          exact Bool.false_ne_true hm
      rw [this]
  · intro co mem2 regions2 pattern2 s2 e2 m2 err herr
    rw [search_memory_for_pattern] at herr
    by_cases hpat : pattern2.isEmpty
    · rw [if_pos hpat] at herr
      exact absurd herr (by simp)
    · rw [if_neg hpat] at herr
      cases hco : co with
      | false => rfl
      | true =>
        rw [hco] at herr
        simp at herr

theorem scan_no_match_is_empty_not_error_witness :
    (true = true) ∧ validTrace 0 ([] : List MemRegion) = true ∧
    (search_memory_for_pattern true (fun _ => 0) [] [1] 0 100 3 = .ok [] ∧
      ∀ (co : Bool) (mem2 : Nat → Nat) (regions2 : List MemRegion) (pattern2 : List Nat)
        (s2 e2 m2 : Nat) (err : ScanError),
        search_memory_for_pattern co mem2 regions2 pattern2 s2 e2 m2 = .error err →
        co = false) :=
  ⟨rfl, by decide,
    scan_no_match_is_empty_not_error true (fun _ => 0) [] [1] 0 100 3 rfl (by decide)
      (by simp)⟩

/-- C7 (counterexample): the pattern `[1, 1]` occurs at address 8191 of the
single committed readable region `[0, 8194)` — fully inside the region, with
fewer than `maxMatches = 5` matches collected — yet the scan returns the
empty sequence, because the occurrence straddles the boundary between the
first 8192-byte chunk read and the second, and chunk reads do not overlap. -/
theorem scan_misses_cross_chunk_occurrence :
    search_memory_for_pattern true memBoundary [⟨0, 8194, true, true⟩] [1, 1] 0 100000 5
        = .ok [] ∧
    matchesAt memBoundary [1, 1] 8191 = true ∧ 8191 + 2 ≤ 0 + 8194 := by
  refine ⟨?_, by decide, by omega⟩
  have hcm1 : chunkMatches memBoundary [1, 1] 0 8192 = [] := by
    unfold chunkMatches
    rw [List.map_eq_nil_iff, List.filter_eq_nil_iff]
    intro i hi
    have hi2 : i < 8191 := by simpa using hi
    have h0 : memBoundary i = 0 := by
      unfold memBoundary
      rw [if_neg (by omega)]
    simp only [matchesAt, h0, show List.range ([1, 1] : List Nat).length = [0, 1] from rfl,
      List.all_cons, List.all_nil, Bool.and_true, Nat.add_zero, beq_iff_eq]
    intro hq
    simp only [Nat.zero_add, Bool.and_eq_true, beq_iff_eq, List.getD_cons_zero,
      List.getD_cons_succ] at hq
    rw [h0] at hq
    omega
  have hcm2 : chunkMatches memBoundary [1, 1] 8192 2 = [] := by decide
  rw [search_memory_for_pattern, if_neg (by decide), if_neg (by decide), scanRegions]
  norm_num [scanRegions]
  rw [scanChunks]
  norm_num [Nat.min_def, hcm1]
  rw [scanChunks]
  norm_num [Nat.min_def, hcm2]
  rw [scanChunks]
  norm_num

/-- C7 (amended): every occurrence of the pattern that lies inside a
committed, readable region of the trace AND entirely within a single one of
the scanner's 8192-byte chunk reads (`inChunkOcc`) is reported, provided the
scan did not hit the `maxMatches` cap; occurrences spanning the boundary
between two consecutive chunk reads are missed, because chunk reads do not
overlap (see the counterexample). -/
theorem scan_reports_within_chunk_occurrences (canOpen : Bool) (mem : Nat → Nat)
    (regions : List MemRegion) (pattern : List Nat)
    (startAddress endAddress maxOccurrences a : Nat) (l : List Nat)
    (hp : 1 ≤ pattern.length)
    (hv : validTrace startAddress regions = true)
    (hres : search_memory_for_pattern canOpen mem regions pattern startAddress endAddress
      maxOccurrences = .ok l)
    (hlen : l.length < maxOccurrences)
    (hocc : inChunkOcc mem pattern endAddress regions startAddress a) :
    a ∈ l := by
  rw [search_memory_for_pattern] at hres
  rw [if_neg (show ¬pattern.isEmpty = true by
    cases pattern with
    | nil => simp at hp
    | cons b t => simp)] at hres
  cases hco : canOpen with
  | false =>
    rw [hco] at hres
    simp at hres
  | true =>
    rw [hco] at hres
    simp only [Bool.not_true, Bool.false_eq_true, if_false] at hres
    obtain rfl : scanRegions mem pattern endAddress maxOccurrences regions startAddress []
        = l := by
      simpa using hres
    exact scanRegions_complete mem pattern endAddress maxOccurrences hp regions
      startAddress [] a hv hlen hocc

/-- Concrete evaluation for the C7 witness: in the 8-byte region the single
in-chunk occurrence at address 3 is found. -/
theorem searchSmall_eval :
    search_memory_for_pattern true memSmall [⟨0, 8, true, true⟩] [1, 1] 0 50 5
      = .ok [3] := by
  have hcm : chunkMatches memSmall [1, 1] 0 8 = [3] := by decide
  rw [search_memory_for_pattern, if_neg (by decide), if_neg (by decide), scanRegions]
  norm_num [scanRegions]
  rw [scanChunks]
  norm_num [Nat.min_def, hcm]
  rw [scanChunks]
  norm_num

theorem scan_reports_within_chunk_occurrences_witness :
    1 ≤ ([1, 1] : List Nat).length ∧
    validTrace 0 [⟨0, 8, true, true⟩] = true ∧
    search_memory_for_pattern true memSmall [⟨0, 8, true, true⟩] [1, 1] 0 50 5
      = .ok [3] ∧
    ([3] : List Nat).length < 5 ∧
    inChunkOcc memSmall [1, 1] 50 [⟨0, 8, true, true⟩] 0 3 ∧
    3 ∈ ([3] : List Nat) :=
  ⟨by decide, by decide, searchSmall_eval, by decide,
    Or.inl ⟨by norm_num, rfl, rfl, by decide, 0, by norm_num, by norm_num [Nat.min_def]⟩,
    scan_reports_within_chunk_occurrences true memSmall [⟨0, 8, true, true⟩] [1, 1]
      0 50 5 3 [3] (by decide) (by decide) searchSmall_eval (by decide)
      (Or.inl ⟨by norm_num, rfl, rfl, by decide, 0, by norm_num,
        by norm_num [Nat.min_def]⟩)⟩

/-! ## Claim theorems: key resolution -/

/-- C1 (counterexample): when both strategies produce a candidate — the
offset strategy the hard-coded `expected_key_str` constant, the heuristic a
different key — the resolver returns the OFFSET candidate, not the heuristic
one, contradicting the claimed unconditional heuristic preference. -/
theorem resolver_prefers_offset_on_expected_match :
    resolve_key (some expected_key_str) (some keyZeros) = some expected_key_str ∧
    resolve_key (some expected_key_str) (some keyZeros) ≠ some keyZeros ∧
    keyZeros ≠ expected_key_str := by
  refine ⟨by decide, by decide, by decide⟩

/-- C1 (amended): the reconciliation returns the heuristic candidate when
both strategies succeed, EXCEPT when the heuristic candidate differs from
the hard-coded `expected_key_str` constant while the offset candidate equals
it, in which case the offset candidate wins; when exactly one strategy
succeeds its candidate is returned regardless of the constant; when neither
succeeds the key is left unset (`none`) — the surrounding function returns
`Ok` and raises no `KeyNotFound` error. -/
theorem resolve_key_characterization :
    ∀ keyFromOffset keyFromMemorySearch : Option String,
      resolve_key keyFromOffset keyFromMemorySearch =
        match keyFromMemorySearch, keyFromOffset with
        | some m, some o =>
          if m ≠ expected_key_str ∧ o = expected_key_str then some o else some m
        | some m, none => some m
        | none, some o => some o
        | none, none => none := by
  intro ko km
  rcases km with _ | m <;> rcases ko with _ | o <;> simp only [resolve_key]
  · by_cases hm : m = expected_key_str <;> simp [hm]
  · by_cases hm : m = expected_key_str
    · simp [hm]
    · by_cases ho : o = expected_key_str <;> simp [hm, ho]

/-! ## Claim theorems: offset-table persistence -/

theorem parseUsizeList_map_ok (xs : List Nat)
    (h : ∀ x ∈ xs, x < 18446744073709551616) :
    parseUsizeList (xs.map (fun x : Nat => Json.jnum (x : Int))) = .ok xs := by
  induction xs with
  | nil => rfl
  | cons x tail ih =>
    have hx : parseUsize (Json.jnum (x : Int)) = .ok x := by
      simp only [parseUsize]
      rw [if_pos ⟨Int.natCast_nonneg x,
        by have := h x (List.mem_cons_self x tail); omega⟩]
      simp
    rw [List.map_cons, parseUsizeList, hx]
    dsimp only
    rw [ih (fun y hy => h y (List.mem_cons_of_mem _ hy))]

/-- C9 (amended): the persistence format round-trips losslessly for every
offset table the persistence struct `WxOffs` can hold, i.e. tables of
non-negative (`usize`) offsets: serializing and deserializing at the
JSON-value level is the identity.  Negative offsets are outside the struct's
value type and do not round-trip (see the counterexample). -/
theorem wxoffs_round_trip (m : List (String × List Nat))
    (h : ∀ p ∈ m, ∀ x ∈ p.2, x < 18446744073709551616) :
    wxOffsFromJson (wxOffsToJson m) = .ok m := by
  rw [wxOffsToJson, wxOffsFromJson]
  induction m with
  | nil => rfl
  | cons p rest ih =>
    obtain ⟨v, xs⟩ := p
    rw [List.map_cons, parseUsizeFields]
    dsimp only
    rw [show parseUsizeField (Json.jarr (xs.map (fun x : Nat => Json.jnum (x : Int))))
        = .ok xs from parseUsizeList_map_ok xs
          (fun x hx => h (v, xs) (List.mem_cons_self _ _) x hx)]
    dsimp only
    rw [ih (fun p hp => h p (List.mem_cons_of_mem _ hp))]

theorem wxoffs_round_trip_witness :
    (∀ p ∈ [("3.9.12.51", [100, 200])], ∀ x ∈ p.2, x < 18446744073709551616) ∧
    wxOffsFromJson (wxOffsToJson [("3.9.12.51", [100, 200])])
      = .ok [("3.9.12.51", [100, 200])] :=
  ⟨by decide, wxoffs_round_trip [("3.9.12.51", [100, 200])] (by decide)⟩

/-- C9 (counterexample): the spec-format document with a negative offset,
`\x7b"3.9.12.51": [-1]\x7d`, is accepted by the signed loader
`load_wx_offsets` (so it is a value of the claimed persistence format), yet
the persistence struct `WxOffs` — declared with `Vec<usize>` offsets —
rejects it on deserialization, so a table containing a negative offset
cannot be written and loaded back: the claimed lossless round trip fails for
negative offsets. -/
theorem negative_offsets_do_not_round_trip :
    load_wx_offsets negDoc = .ok [("3.9.12.51", [-1])] ∧
    wxOffsFromJson negDoc = .error "invalid value: integer out of range of usize" :=
  ⟨rfl, rfl⟩

end Wxdump
